import Mathlib

/-!
A shallow embedding of `lis.py`, a small Scheme interpreter: the tokenizer,
the reader (`read_from_tokens` / `atom`), the environment model (`Env`), user
procedures (`Procedure`) and the evaluator (`eval`), with theorems checking
the program's specification against this embedding.

Conventions of the embedding:
  * Python's one dynamic value type is `Value`; expressions and runtime
    values share it, exactly as in the source.
  * `Env` objects form a chain through their `outer` references; the model
    keeps every frame ever created in a `Store` (a list indexed by creation
    order) and threads the store through evaluation, so that Python's
    in-place mutation of a frame's dict becomes replacement of the frame at
    its index.
  * Host recursion is bounded by explicit fuel; running out of fuel is a
    model artifact (`fuelOut`), distinct from every Python exception.
  * Errors carry the store at the moment of the raise, since Python
    mutations performed before an exception persist.
  * The native primitives installed by `standard_env` (`+`, `car`, ...) are
    outside the model: no claim depends on a specific primitive, and none of
    them writes to an environment frame. Applying a non-`Procedure` value is
    therefore modelled as the TypeError Python raises for a non-callable.
-/

set_option autoImplicit false

namespace Lispy

/-- Python runtime values manipulated by `lis.py`. Expressions and values share
one dynamic type, exactly as in the source (str | int | float | list | bool |
None | Procedure). A Python float is modelled by its exact value as an integer
fraction numerator/denominator (the denominator a positive power of ten from
the literal); IEEE rounding is not modelled, and no float value arises in any
execution a claim involves, because `atom`'s Float branch is unreachable under
exact arithmetic and no primitive of the model produces floats. A `proc`
carries the raw params expression, the body expression, and the index of the
defining environment frame in the store. -/
inductive Value where
  | int   : Int → Value
  | float : Int → Nat → Value
  | str   : String → Value
  | bool  : Bool → Value
  | noneV : Value
  | list  : List Value → Value
  | proc  : Value → Value → Nat → Value
deriving Repr

mutual

/-- Structural (boolean) equality of values, mirroring Python `==` on the
ground values the interpreter compares (dict keys and the special-form strings);
distinct representations of one float value never arise in the model. -/
def veq : Value → Value → Bool
  | .int a, .int b => a == b
  | .float n1 d1, .float n2 d2 => n1 == n2 && d1 == d2
  | .str a, .str b => a == b
  | .bool a, .bool b => a == b
  | .noneV, .noneV => true
  | .list a, .list b => veqList a b
  | .proc p1 b1 e1, .proc p2 b2 e2 => veq p1 p2 && veq b1 b2 && e1 == e2
  | _, _ => false

/-- `veq`, elementwise on lists. -/
def veqList : List Value → List Value → Bool
  | [], [] => true
  | a :: as, b :: bs => veq a b && veqList as bs
  | _, _ => false

end

/-- Soundness and completeness of `veq` for propositional equality (a `def`
of the proposition, used to build the `DecidableEq` instance below). -/
def veq_iff : ∀ a b : Value, veq a b = true ↔ a = b := by
  apply veq.induct (fun a b => veq a b = true ↔ a = b)
      (fun a b => veqList a b = true ↔ a = b)
  case case7 =>
    intro p1 b1 e1 p2 b2 e2 ih1 ih2
    simp [veq, ih1, ih2, and_assoc]
  case case8 =>
    intro t x h1 h2 h3 h4 h5 h6 h7
    cases t <;> cases x <;>
      first
        | exact (h1 _ _ rfl rfl).elim
        | exact (h2 _ _ _ _ rfl rfl).elim
        | exact (h3 _ _ rfl rfl).elim
        | exact (h4 _ _ rfl rfl).elim
        | exact (h5 rfl rfl).elim
        | exact (h6 _ _ rfl rfl).elim
        | exact (h7 _ _ _ _ _ _ rfl rfl).elim
        | simp [veq]
  case case11 =>
    intro t x h1 h2
    cases t <;> cases x <;>
      first
        | exact (h1 rfl rfl).elim
        | exact (h2 _ _ _ _ rfl rfl).elim
        | simp [veqList]
  all_goals intros
  all_goals simp_all [veq, veqList]

instance : DecidableEq Value := fun a b => decidable_of_iff (veq a b = true) (veq_iff a b)

instance {e a : Type} [DecidableEq e] [DecidableEq a] : DecidableEq (Except e a) := fun x y =>
  match x, y with
  | .ok v, .ok w =>
    if h : v = w then isTrue (by rw [h]) else isFalse (fun hh => h (Except.ok.inj hh))
  | .error v, .error w =>
    if h : v = w then isTrue (by rw [h]) else isFalse (fun hh => h (Except.error.inj hh))
  | .ok _, .error _ => isFalse (fun hh => Except.noConfusion hh)
  | .error _, .ok _ => isFalse (fun hh => Except.noConfusion hh)

/-- A Python `dict` with `Value` keys, modelled as an insertion-ordered
association list whose keys are kept unique by `dictSet`. -/
abbrev Dict := List (Value × Value)

/-- Python `d[k]` read / `d.get(k)`: the value at the matching key. Keys are
compared structurally; Python's cross-type key equality (`1 == True == 1.0`)
is not modelled, and no claim involves such keys. -/
def dictGet (d : Dict) (k : Value) : Option Value :=
  (d.find? (fun kv => decide (kv.1 = k))).map (fun kv => kv.2)

/-- Python `k in d`. -/
def dictHasKey (d : Dict) (k : Value) : Bool :=
  (dictGet d k).isSome

/-- Python `d[k] = v`: overwrite in place if the key is present, else append. -/
def dictSet (d : Dict) (k v : Value) : Dict :=
  if dictHasKey d k then d.map (fun kv => if kv.1 = k then (k, v) else kv)
  else d ++ [(k, v)]

/-- `dict(zip(params, args))` as performed by `Env.__init__`'s
`self.update(zip(params, args))` on a fresh dict: pairwise binding, the
shorter sequence wins silently, a repeated key keeps the last pair. -/
def dictOfZip (params args : List Value) : Dict :=
  (params.zip args).foldl (fun d kv => dictSet d kv.1 kv.2) []

/-- One `Env` frame: its own dict plus the optional outer environment,
`outer` being an index into the store of all frames created so far. -/
structure EnvFrame where
  table : Dict
  outer : Option Nat
deriving DecidableEq, Repr

/-- All environment frames ever created, indexed by creation order. An `Env`
object of the source is an index into this store; mutating a frame's dict is
modelled by replacing the frame at its index. -/
abbrev Store := List EnvFrame

/-- Runtime errors of the interpreter, by Python exception and raise site:
`unbound` is the ValueError raised by `Env.find`; `arity` the ValueError
raised by a failing tuple unpacking (a special form with the wrong number of
sub-expressions, or `op, *args = x` on an empty list); `indexErr` the
IndexError of `args[0]` in the `quote` branch; `notCallable` the TypeError of
calling a non-callable; `typeErr` the TypeError of `zip` over a non-iterable
params object; `badRef` and `fuelOut` are model artifacts (a dangling frame
index, which no reachable store contains, and fuel exhaustion). -/
inductive EvalErr where
  | unbound : Value → EvalErr
  | arity : EvalErr
  | indexErr : EvalErr
  | notCallable : EvalErr
  | typeErr : EvalErr
  | badRef : EvalErr
  | fuelOut : EvalErr
deriving DecidableEq, Repr

/-- `Env.find`, walking the outer chain from frame `i`. Beware that the
source's `elif not self.outer` is true both when `outer is None` and when the
outer frame's dict is empty (an empty dict is falsey in Python), so the walk
raises `ValueError` at an empty intermediate frame without continuing. -/
def findFrom (s : Store) : Nat → Nat → Value → Except EvalErr Nat
  | 0, _, _ => .error .fuelOut
  | fuel+1, i, var =>
    match s.get? i with
    | none => .error .badRef
    | some fr =>
      if dictHasKey fr.table var then .ok i
      else
        match fr.outer with
        | none => .error (.unbound var)
        | some j =>
          match s.get? j with
          | none => .error .badRef
          | some ofr =>
            if ofr.table.isEmpty then .error (.unbound var)
            else findFrom s fuel j var

/-- `env.find(var)` for the frame at index `i` of store `s`. A valid outer
chain visits each frame at most once, so `s.length + 1` steps always suffice. -/
def Store.find (s : Store) (i : Nat) (var : Value) : Except EvalErr Nat :=
  findFrom s (s.length + 1) i var

/-- `frame[k] = v` on the frame at index `i` (Python dict item assignment). -/
def storeWrite (s : Store) (i : Nat) (k v : Value) : Store :=
  match s.get? i with
  | none => s
  | some fr => s.set i ⟨dictSet fr.table k v, fr.outer⟩

/-- `Env(params, args, outer)` as a constructor call: append a fresh frame
holding `dict(zip(params, args))` with the given outer link; the new frame's
index is the previous store length. -/
def envNew (s : Store) (params args : List Value) (outer : Option Nat) : Store × Nat :=
  (s ++ [⟨dictOfZip params args, outer⟩], s.length)

/-- Python truthiness `bool(x)`, as applied to the result of an `if` test:
False, None, numeric zero, the empty string and the empty list are falsey;
everything else, including every Procedure, is truthy. -/
def truthy : Value → Bool
  | .int n => decide (n ≠ 0)
  | .float n _ => decide (n ≠ 0)
  | .str s => decide (s ≠ "")
  | .bool b => b
  | .noneV => false
  | .list l => decide (l ≠ [])
  | .proc _ _ _ => true

/-- The keys produced by iterating `params` in `zip(params, args)` inside
`Env.__init__` as called from `Procedure.__call__`: a Python list yields its
elements, a string yields its characters as one-character strings, and any
other value is not iterable, raising TypeError. -/
def paramKeys : Value → Option (List Value)
  | .list l => some l
  | .str s => some (s.data.map (fun c => Value.str (String.mk [c])))
  | _ => none

/-- `eval(x, env)` from the source, with explicit fuel bounding the host call
stack and the store of environment frames threaded through. The branches, in
source order: a string is looked up via `env.find(x)[x]`; any other non-list
value is returned as itself; `op, *args = x` raises ValueError on an empty
list; then `quote` (whose `args[0]` raises IndexError on empty `args`), `if`,
`define`, `set!` and `lambda` — each unpacking raising ValueError on wrong
arity *before* anything is evaluated — and, in the `set!` branch, Python
evaluates the assignment's right-hand side before the target, so the
expression is evaluated before `env.find(symbol)` runs. The final branch is
general application: evaluate the operator, evaluate the arguments left to
right, then call (inlining `Procedure.__call__`, restated as `procedureCall`
below; a non-Procedure raises TypeError, primitives being outside the model). -/
def eval : Nat → Value → Nat → Store → Store × Except EvalErr Value
  | 0, _, _, s => (s, .error .fuelOut)
  | fuel+1, x, env, s =>
    match x with
    | .str name =>
      match Store.find s env (.str name) with
      | .error e => (s, .error e)
      | .ok i =>
        match s.get? i with
        | none => (s, .error .badRef)
        | some fr =>
          match dictGet fr.table (.str name) with
          | none => (s, .error .badRef)
          | some v => (s, .ok v)
    | .list [] => (s, .error .arity)
    | .list (op :: args) =>
      if op = Value.str "quote" then
        match args with
        | [] => (s, .error .indexErr)
        | a :: _ => (s, .ok a)
      else if op = Value.str "if" then
        match args with
        | [test, conseq, alt] =>
          match eval fuel test env s with
          | (s1, .error e) => (s1, .error e)
          | (s1, .ok tv) => eval fuel (if truthy tv then conseq else alt) env s1
        | _ => (s, .error .arity)
      else if op = Value.str "define" then
        match args with
        | [sym, expr] =>
          match eval fuel expr env s with
          | (s1, .error e) => (s1, .error e)
          | (s1, .ok v) => (storeWrite s1 env sym v, .ok .noneV)
        | _ => (s, .error .arity)
      else if op = Value.str "set!" then
        match args with
        | [sym, expr] =>
          match eval fuel expr env s with
          | (s1, .error e) => (s1, .error e)
          | (s1, .ok v) =>
            match Store.find s1 env sym with
            | .error e => (s1, .error e)
            | .ok i => (storeWrite s1 i sym v, .ok .noneV)
        | _ => (s, .error .arity)
      else if op = Value.str "lambda" then
        match args with
        | [params, body] => (s, .ok (.proc params body env))
        | _ => (s, .error .arity)
      else
        match eval fuel op env s with
        | (s1, .error e) => (s1, .error e)
        | (s1, .ok procv) =>
          match args.foldl
              (fun acc a =>
                match acc with
                | (s2, .error e) => (s2, .error e)
                | (s2, .ok vs) =>
                  match eval fuel a env s2 with
                  | (s3, .error e) => (s3, .error e)
                  | (s3, .ok v) => (s3, .ok (vs ++ [v])))
              ((s1, .ok []) : Store × Except EvalErr (List Value)) with
          | (s2, .error e) => (s2, .error e)
          | (s2, .ok vals) =>
            match procv with
            | .proc params body envIdx =>
              match paramKeys params with
              | none => (s2, .error .typeErr)
              | some keys =>
                let sn := envNew s2 keys vals (some envIdx)
                eval fuel body sn.2 sn.1
            | _ => (s2, .error .notCallable)
    | v => (s, .ok v)

/-- `Procedure.__call__(self, *args)`: evaluate the stored body in a fresh
frame binding the params to the call-time argument values, with the captured
defining environment as the outer link — `eval(self.body, Env(self.params,
args, outer=self.env))`. Calling a non-Procedure raises TypeError
(`standard_env` primitives are outside the model). -/
def procedureCall (fuel : Nat) (procv : Value) (vals : List Value) (s : Store) :
    Store × Except EvalErr Value :=
  match procv with
  | .proc params body envIdx =>
    match paramKeys params with
    | none => (s, .error .typeErr)
    | some keys =>
      let sn := envNew s keys vals (some envIdx)
      eval fuel body sn.2 sn.1
  | _ => (s, .error .notCallable)

/-- One step of the source's `[eval(arg, env) for arg in args]`, threading the
store and stopping at the first error. -/
def evalStep (fuel env : Nat) (acc : Store × Except EvalErr (List Value)) (a : Value) :
    Store × Except EvalErr (List Value) :=
  match acc with
  | (s2, .error e) => (s2, .error e)
  | (s2, .ok vs) =>
    match eval fuel a env s2 with
    | (s3, .error e) => (s3, .error e)
    | (s3, .ok v) => (s3, .ok (vs ++ [v]))

/-- The source's `[eval(arg, env) for arg in args]`. -/
def evalArgs (fuel : Nat) (args : List Value) (env : Nat) (s : Store) :
    Store × Except EvalErr (List Value) :=
  args.foldl (evalStep fuel env) (s, .ok [])

/-- Errors of the reader pipeline, by Python exception and raise site:
`eofErr` is `SyntaxError("Unexpected end of file")`; `parenErr` is
`SyntaxError("Invalid parenthesis closure")`; `indexErr` the IndexError of
`tokens[0]` on an exhausted token list; `valueErr` the ValueError of
`int(token)` inside `atom`; `fuelOut` a model artifact. -/
inductive ReadError where
  | eofErr : ReadError
  | parenErr : ReadError
  | indexErr : ReadError
  | valueErr : ReadError
  | fuelOut : ReadError
deriving DecidableEq, Repr

/-- The effect of `chars.replace("(", " ( ").replace(")", " ) ")`: every
parenthesis gains a space on both sides (the two replacements are disjoint,
so one pass is equivalent). -/
def padParens : List Char → List Char
  | [] => []
  | c :: rest =>
    if c = '(' || c = ')' then ' ' :: c :: ' ' :: padParens rest
    else c :: padParens rest

/-- Python `str.split()` with no separator: split on runs of whitespace,
dropping empty pieces; `acc` is the token being accumulated. -/
def wsSplitAux : List Char → List Char → List String
  | acc, [] => if acc.isEmpty then [] else [String.mk acc]
  | acc, c :: rest =>
    if c.isWhitespace then
      (if acc.isEmpty then [] else [String.mk acc]) ++ wsSplitAux [] rest
    else wsSplitAux (acc ++ [c]) rest

/-- `tokenize(chars)`: pad each parenthesis with spaces, then split on
whitespace. -/
def tokenize (chars : String) : List String :=
  wsSplitAux [] (padParens chars.data)

/-- Python `str.lstrip("-")`: drop every leading dash (not merely one). -/
def lstripDash : List Char → List Char
  | '-' :: rest => lstripDash rest
  | l => l

/-- Whether `pat` is an initial segment of `l`. -/
def headMatches : List Char → List Char → Bool
  | [], _ => true
  | _ :: _, [] => false
  | p :: ps, c :: cs => p == c && headMatches ps cs

/-- Python `s.replace(pat, "", 1)` for nonempty `pat`: delete the first
occurrence of `pat`, if any. -/
def removeFirst (pat : List Char) : List Char → List Char
  | [] => []
  | c :: rest =>
    if headMatches pat (c :: rest) then (c :: rest).drop pat.length
    else c :: removeFirst pat rest

/-- Python `str.isdigit()` for the ASCII content relevant here: nonempty and
all decimal digits. -/
def allDigits (l : List Char) : Bool :=
  !l.isEmpty && l.all Char.isDigit

/-- The numeric-literal heuristic of `atom`:
`token.lstrip("-").replace(".", "", 1).replace("e-", "", 1).replace("e", "", 1).isdigit()`. -/
def numericHeuristic (token : String) : Bool :=
  allDigits (removeFirst ['e'] (removeFirst ['e', '-'] (removeFirst ['.'] (lstripDash token.data))))

/-- The natural number denoted by a run of decimal digits. -/
def digitsToNat (l : List Char) : Nat :=
  l.foldl (fun n c => 10 * n + (c.toNat - 48)) 0

/-- Python `int(token)` on a whitespace-free token: an optional single sign
followed by a nonempty digit run, anything else raises ValueError (digit-group
underscores, which no heuristic-passing token contains, are not modelled). -/
def pyInt (token : String) : Except ReadError Int :=
  match token.data with
  | '-' :: rest => if allDigits rest then .ok (-(digitsToNat rest : Int)) else .error .valueErr
  | '+' :: rest => if allDigits rest then .ok (digitsToNat rest : Int) else .error .valueErr
  | l => if allDigits l then .ok (digitsToNat l : Int) else .error .valueErr

/-- Split at the first character satisfying `p`, dropping it. -/
def splitOnce (p : Char → Bool) : List Char → List Char × Option (List Char)
  | [] => ([], none)
  | c :: rest =>
    if p c then ([], some rest)
    else
      let (pre, post) := splitOnce p rest
      (c :: pre, post)

/-- Python `float(token)` for finite decimal literals
`[sign] (digits [. digits] | . digits) [eE [sign] digits]`, with the exact
value as a fraction (numerator, positive denominator). IEEE-754 rounding is
not modelled: the rounded and exact values first differ beyond 2^53, and no
claim involves such a token. -/
def pyFloat (token : String) : Except ReadError (Int × Nat) :=
  let signAndRest :=
    match token.data with
    | '-' :: rest => (true, rest)
    | '+' :: rest => (false, rest)
    | l => (false, l)
  let (mant, expPart) := splitOnce (fun c => c == 'e' || c == 'E') signAndRest.2
  let (ipart, fpartOpt) := splitOnce (fun c => c == '.') mant
  let fpart := fpartOpt.getD []
  if !(ipart.all Char.isDigit) || !(fpart.all Char.isDigit)
      || (ipart.isEmpty && fpart.isEmpty) then
    .error .valueErr
  else
    let mantNum : Int := (digitsToNat (ipart ++ fpart) : Int)
    let num : Int := if signAndRest.1 then -mantNum else mantNum
    let den : Nat := 10 ^ fpart.length
    match expPart with
    | none => .ok (num, den)
    | some e =>
      let esignAndDigits :=
        match e with
        | '-' :: r => (true, r)
        | '+' :: r => (false, r)
        | r => (false, r)
      if allDigits esignAndDigits.2 then
        let n := digitsToNat esignAndDigits.2
        .ok (if esignAndDigits.1 then (num, den * 10 ^ n) else (num * (10 ^ n : Nat), den))
      else .error .valueErr

/-- `atom(token)`: a token passing the numeric heuristic is classified by
`int(token) == float(token)` — where `int(token)` is evaluated first and
raises ValueError on any token that is not an optionally signed digit run, so
every decimal-point or exponent token that passes the heuristic crashes here —
and any token failing the heuristic becomes a Symbol, i.e. the string itself.
The `int == float` comparison is the exact `i = q.1 / q.2` (the denominator
is positive), by cross-multiplication. -/
def atom (token : String) : Except ReadError Value :=
  if numericHeuristic token then
    match pyInt token with
    | .error e => .error e
    | .ok i =>
      match pyFloat token with
      | .error e => .error e
      | .ok q => if i * (q.2 : Int) = q.1 then .ok (.int i) else .ok (.float q.1 q.2)
  else .ok (.str token)

mutual

/-- `read_from_tokens(tokens)`: pop the first token and dispatch; returns the
parsed expression together with the remaining tokens (the source pops from a
shared mutable list). Fuel bounds the model's recursion depth only. -/
def read_from_tokens : Nat → List String → Except ReadError (Value × List String)
  | 0, _ => .error .fuelOut
  | _+1, [] => .error .eofErr
  | fuel+1, token :: rest =>
    if token = "(" then readListLoop fuel rest []
    else if token = ")" then .error .parenErr
    else
      match atom token with
      | .error e => .error e
      | .ok v => .ok (v, rest)

/-- The `while tokens[0] != ")"` loop of the `"("` branch, collecting `L`:
note that `tokens[0]` raises IndexError when the stream runs out before the
closing parenthesis. -/
def readListLoop : Nat → List String → List Value → Except ReadError (Value × List String)
  | 0, _, _ => .error .fuelOut
  | _+1, [], _ => .error .indexErr
  | fuel+1, t :: rest, acc =>
    if t = ")" then .ok (.list acc, rest)
    else
      match read_from_tokens fuel (t :: rest) with
      | .error e => .error e
      | .ok (v, rest2) => readListLoop fuel rest2 (acc ++ [v])

end

/-- `parse(program) = read_from_tokens(tokenize(program))`, keeping just the
expression (the source ignores whatever is left in the shared token list).
Fuel `2n + 2` covers any token list of length `n`. -/
def parse (program : String) : Except ReadError Value :=
  let tokens := tokenize program
  match read_from_tokens (2 * tokens.length + 2) tokens with
  | .error e => .error e
  | .ok (v, _) => .ok v

/-! ### Predicates for the frame-effect claim

The frame-effect claim about `Procedure.__call__` carries the caveat "absent
an explicit `set!`": it is formalised with the hypothesis that the special
form `set!` occurs nowhere in the code the call can reach — neither in the
evaluated expression nor in any value stored in any frame (a procedure's
stored body included). Under that hypothesis the only frame writes are
`define`s, and a `define` always writes the evaluator's current innermost
frame, which during a procedure call is the call's fresh frame or one created
after it. -/

/-- No `str "set!"` atom occurs anywhere in the value (under lists, and under
a procedure's params and body). -/
inductive NoSet : Value → Prop
  | int (n : Int) : NoSet (.int n)
  | float (n : Int) (d : Nat) : NoSet (.float n d)
  | str (s : String) : s ≠ "set!" → NoSet (.str s)
  | bool (b : Bool) : NoSet (.bool b)
  | noneV : NoSet .noneV
  | list (l : List Value) : (∀ v ∈ l, NoSet v) → NoSet (.list l)
  | proc (p b : Value) (e : Nat) : NoSet p → NoSet b → NoSet (.proc p b e)

/-- Every key and value of the frame's dict is `set!`-free. -/
def FrameNoSet (fr : EnvFrame) : Prop :=
  ∀ kv ∈ fr.table, NoSet kv.1 ∧ NoSet kv.2

/-- Every frame of the store is `set!`-free. -/
def StoreNoSet (s : Store) : Prop :=
  ∀ fr ∈ s, FrameNoSet fr

/-- Store `t` evolves from `s` touching only the frame at index `env`: the
store only grows, and every older frame other than `env` is unchanged. -/
def ExtendsOutside (env : Nat) (s t : Store) : Prop :=
  s.length ≤ t.length ∧ ∀ i, i < s.length → i ≠ env → t.get? i = s.get? i

/-! ## Theorems on the claims -/

/-- C8: `quote` is an identity on its argument: for every expression `e`,
environment and store, evaluating the list expression `(quote e)` returns `e`
itself, verbatim and unevaluated, with the store untouched (so no
sub-expression of `e` is evaluated). -/
theorem quote_returns_argument_verbatim (fuel : Nat) (e : Value) (env : Nat) (s : Store) :
    eval (fuel + 1) (.list [.str "quote", e]) env s = (s, .ok e) := rfl

/-- C10: the empty list is not an evaluatable expression: for every
environment and store, evaluating `List []` raises the ValueError of the
failing unpacking `op, *args = x` (it never returns a value). -/
theorem eval_empty_list_raises (fuel env : Nat) (s : Store) :
    eval (fuel + 1) (.list []) env s = (s, .error .arity) := rfl

/-- C7: an `if` special form with a number of following sub-expressions other
than exactly 3 fails with the arity error (the ValueError of the failing
unpacking `(test, consequence, alternative) = args`), before anything is
evaluated. -/
theorem if_wrong_arity_error (fuel env : Nat) (s : Store) (args : List Value)
    (h : args.length ≠ 3) :
    eval (fuel + 1) (.list (.str "if" :: args)) env s = (s, .error .arity) := by
  match args, h with
  | [], _ => rfl
  | [a], _ => rfl
  | [a, b], _ => rfl
  | [a, b, c], h => exact absurd rfl h
  | a :: b :: c :: d :: rest, _ => rfl

/-- Witness for C7 at the concrete input `(if 1 2)` (two sub-expressions). -/
theorem if_wrong_arity_error_witness :
    eval 1 (.list [.str "if", .int 1, .int 2]) 0 [] = ([], .error .arity) :=
  if_wrong_arity_error 0 0 [] [.int 1, .int 2] (by decide)

/-- C1 counterexample: the claim says eval of `(if 0 1 2)` returns Integer 1
(numeric zero truthy); the code returns Integer 2, because the test result is
fed to Python truthiness and `bool(0)` is False. -/
theorem if_zero_selects_alternative_cex :
    eval 2 (.list [.str "if", .int 0, .int 1, .int 2]) 0 [⟨[], none⟩]
      = ([⟨[], none⟩], .ok (.int 2))
    ∧ Value.int 2 ≠ Value.int 1 := ⟨rfl, by decide⟩

/-- C1 (amended): eval of `(if test conseq alt)` first evaluates `test`; if
the result is truthy under the host's truthiness — where False, None, numeric
zero, the empty string and the empty list count as false and everything else,
zero excluded, counts as true — it evaluates and returns `conseq`, else
`alt`; the non-selected branch is never evaluated (the result does not depend
on it). In particular eval of `(if 0 1 2)` returns Integer 2. -/
theorem if_truthiness_semantics (fuel : Nat) (test conseq alt : Value) (env : Nat)
    (s s1 : Store) (tv : Value)
    (h : eval fuel test env s = (s1, .ok tv)) :
    eval (fuel + 1) (.list [.str "if", test, conseq, alt]) env s
      = eval fuel (if truthy tv then conseq else alt) env s1
    ∧ truthy (.int 0) = false ∧ truthy (.float 0 1) = false
    ∧ truthy (.bool false) = false ∧ truthy .noneV = false
    ∧ truthy (.str "") = false ∧ truthy (.list []) = false
    ∧ truthy (.int 1) = true ∧ truthy (.bool true) = true
    ∧ truthy (.list [.int 0]) = true := by
  refine ⟨?_, rfl, rfl, rfl, rfl, rfl, rfl, rfl, rfl, rfl⟩
  have heq : eval (fuel + 1) (.list [.str "if", test, conseq, alt]) env s
      = (match eval fuel test env s with
         | (s2, .error e) => (s2, .error e)
         | (s2, .ok tv2) => eval fuel (if truthy tv2 then conseq else alt) env s2) := rfl
  rw [heq, h]

/-- Witness for C1's amended theorem at the concrete input `(if 0 10 20)`. -/
theorem if_truthiness_semantics_witness :
    eval 2 (.list [.str "if", .int 0, .int 10, .int 20]) 0 []
      = eval 1 (if truthy (.int 0) then .int 10 else .int 20) 0 []
    ∧ truthy (.int 0) = false ∧ truthy (.float 0 1) = false
    ∧ truthy (.bool false) = false ∧ truthy .noneV = false
    ∧ truthy (.str "") = false ∧ truthy (.list []) = false
    ∧ truthy (.int 1) = true ∧ truthy (.bool true) = true
    ∧ truthy (.list [.int 0]) = true :=
  if_truthiness_semantics 1 (.int 0) (.int 10) (.int 20) 0 [] [] (.int 0) rfl

/-- C2 (code bug): `"3.5"` is numeric by the heuristic, so the claim says
`atom "3.5"` produces Float 3.5; the code instead raises ValueError, because
`int(token)` is evaluated on the raw token before the Integer/Float choice
and crashes on any decimal point or exponent. The symbol and pure-integer
cases of the claim do hold: `atom "foo"` is the Symbol `"foo"` and
`atom "3"` the Integer 3. -/
theorem atom_float_token_value_error :
    numericHeuristic "3.5" = true
    ∧ atom "3.5" = .error .valueErr
    ∧ atom "1e5" = .error .valueErr
    ∧ atom "foo" = .ok (.str "foo")
    ∧ atom "3" = .ok (.int 3)
    ∧ atom "-7" = .ok (.int (-7)) := ⟨rfl, rfl, rfl, rfl, rfl, rfl⟩

/-- C3 (code bug): a token sequence opening a list with `"("` but exhausted
before the matching `")"` makes `read_from_tokens` fail with the IndexError
of the out-of-range access `tokens[0]` in the while-loop condition — not with
a SyntaxError, which the claim (and the spec) requires. The two SyntaxError
cases the code does raise are distinct from this error. -/
theorem read_unterminated_list_index_error :
    read_from_tokens 10 ["("] = .error .indexErr
    ∧ read_from_tokens 10 ["(", "1"] = .error .indexErr
    ∧ parse "(" = .error .indexErr
    ∧ ReadError.indexErr ≠ ReadError.eofErr
    ∧ ReadError.indexErr ≠ ReadError.parenErr := ⟨rfl, rfl, rfl, by decide, by decide⟩

/-- C4 (code bug): `define` does bind in the innermost frame and `set!` does
mutate the innermost frame already containing the symbol when the walk gets
there — scenario (A): with `x` bound to 1 in the global frame, a nested
lambda call running `(set! x 2)` mutates the global binding, and a sibling
read of `x` then observes 2; scenario (B): a nested lambda whose parameter is
named `x` shadows the outer `x`, and calling it leaves the outer binding
unchanged. But the claim's "always" fails — scenario (C): with the same
global `x`, `((lambda () ((lambda () (set! x 2)))))` raises the unbound
ValueError and leaves `x` at 1, because `Env.find` stops at the empty
intermediate frame (`not self.outer` is true for an empty dict), contradicting
`find`'s own docstring ("Find the innermost Env where var appears"). -/
theorem set_define_scoping_behavior :
    eval 10 (.list [.list [.str "lambda", .list [.str "y"],
        .list [.str "set!", .str "x", .int 2]], .int 0]) 0
        [⟨[(.str "x", .int 1)], none⟩]
      = ([⟨[(.str "x", .int 2)], none⟩, ⟨[(.str "y", .int 0)], some 0⟩], .ok .noneV)
    ∧ eval 1 (.str "x") 0 [⟨[(.str "x", .int 2)], none⟩, ⟨[(.str "y", .int 0)], some 0⟩]
      = ([⟨[(.str "x", .int 2)], none⟩, ⟨[(.str "y", .int 0)], some 0⟩], .ok (.int 2))
    ∧ eval 10 (.list [.list [.str "lambda", .list [.str "x"], .str "x"], .int 7]) 0
        [⟨[(.str "x", .int 1)], none⟩]
      = ([⟨[(.str "x", .int 1)], none⟩, ⟨[(.str "x", .int 7)], some 0⟩], .ok (.int 7))
    ∧ eval 10 (.list [.list [.str "lambda", .list [],
        .list [.list [.str "lambda", .list [],
          .list [.str "set!", .str "x", .int 2]]]]]) 0
        [⟨[(.str "x", .int 1)], none⟩]
      = ([⟨[(.str "x", .int 1)], none⟩, ⟨[], some 0⟩, ⟨[], some 1⟩],
         .error (.unbound (.str "x"))) := ⟨rfl, rfl, rfl, rfl⟩

/-- C6 counterexample: the claim says a failing value expression leaves no
binding for the defined symbol; but in
`(define x ((lambda () y) (define x 5)))` over an empty global frame, the
argument's nested `(define x 5)` binds `x` before the body's unbound `y`
raises, so the whole expression raises with `x` left bound to 5. -/
theorem define_failure_partial_binding_cex :
    eval 10 (.list [.str "define", .str "x",
        .list [.list [.str "lambda", .list [], .str "y"],
               .list [.str "define", .str "x", .int 5]]]) 0 [⟨[], none⟩]
      = ([⟨[(.str "x", .int 5)], none⟩, ⟨[], some 0⟩], .error (.unbound (.str "y")))
    ∧ dictGet [(.str "x", .int 5)] (.str "x") = some (.int 5) := ⟨rfl, rfl⟩

/-- C6 (amended): the `define` form itself is atomic with respect to failure
of its value expression: if evaluating `expr` raises, then `(define sym
expr)` raises the same error with exactly the store the failed evaluation
left — the form performs no binding of its own, so `sym`'s binding can change
only through side effects of evaluating `expr` itself (such as a nested
define of the same symbol). -/
theorem define_atomic_on_error (fuel : Nat) (sym expr : Value) (env : Nat)
    (s s1 : Store) (e : EvalErr)
    (h : eval fuel expr env s = (s1, .error e)) :
    eval (fuel + 1) (.list [.str "define", sym, expr]) env s = (s1, .error e) := by
  have heq : eval (fuel + 1) (.list [.str "define", sym, expr]) env s
      = (match eval fuel expr env s with
         | (s2, .error e2) => (s2, .error e2)
         | (s2, .ok v) => (storeWrite s2 env sym v, .ok .noneV)) := rfl
  rw [heq, h]

/-- Witness for C6's amended theorem: `(define x y)` with `y` unbound leaves
the store exactly as it was. -/
theorem define_atomic_on_error_witness :
    eval 2 (.list [.str "define", .str "x", .str "y"]) 0 [⟨[], none⟩]
      = ([⟨[], none⟩], .error (.unbound (.str "y"))) :=
  define_atomic_on_error 1 (.str "x") (.str "y") 0 [⟨[], none⟩] [⟨[], none⟩]
    (.unbound (.str "y")) rfl

/-! ### Association-list lemmas for the pairwise-binding claim -/

theorem dictHasKey_nil (k : Value) : dictHasKey [] k = false := rfl

theorem dictSet_fresh (d : Dict) (k v : Value) (h : dictHasKey d k = false) :
    dictSet d k v = d ++ [(k, v)] := by
  simp [dictSet, h]

theorem dictHasKey_append (d e : Dict) (k : Value) :
    dictHasKey (d ++ e) k = (dictHasKey d k || dictHasKey e k) := by
  induction d with
  | nil => simp [dictHasKey, dictGet]
  | cons kv rest ih =>
    by_cases h : kv.1 = k
    · simp [dictHasKey, dictGet, List.find?_cons, h]
    · simp only [dictHasKey, dictGet, List.cons_append, List.find?_cons, h,
        decide_eq_true_eq, if_false, decide_False] at ih ⊢
      exact ih

theorem dictHasKey_single (k2 v2 k : Value) (h : k2 ≠ k) :
    dictHasKey [(k2, v2)] k = false := by
  simp [dictHasKey, dictGet, List.find?, h]

theorem foldl_dictSet_fresh (pairs : List (Value × Value)) :
    ∀ d : Dict, (∀ p ∈ pairs, dictHasKey d p.1 = false) →
      (pairs.map Prod.fst).Nodup →
      pairs.foldl (fun d2 kv => dictSet d2 kv.1 kv.2) d = d ++ pairs := by
  induction pairs with
  | nil => intro d _ _; simp
  | cons kv rest ih =>
    intro d hfresh hnd
    rw [List.foldl_cons, dictSet_fresh d kv.1 kv.2 (hfresh kv (List.mem_cons_self kv rest))]
    rw [ih (d ++ [(kv.1, kv.2)]) ?fresh ?nd]
    · simp
    case fresh =>
      intro p hp
      rw [dictHasKey_append]
      have h1 : dictHasKey d p.1 = false := hfresh p (List.mem_cons_of_mem _ hp)
      have h2 : kv.1 ≠ p.1 := by
        intro hEq
        exact (List.nodup_cons.mp hnd).1
          (hEq ▸ List.mem_map_of_mem Prod.fst hp)
      rw [h1, dictHasKey_single kv.1 kv.2 p.1 h2]
      rfl
    case nd => exact (List.nodup_cons.mp hnd).2

theorem zip_map_fst_nodup (ps : List Value) :
    ∀ vs : List Value, ps.Nodup → ((ps.zip vs).map Prod.fst).Nodup := by
  induction ps with
  | nil => intro vs _; simp
  | cons p pt ih =>
    intro vs hnd
    match vs with
    | [] => simp
    | v :: vt =>
      rw [List.zip_cons_cons, List.map_cons]
      refine List.nodup_cons.mpr ⟨?_, ih vt (List.nodup_cons.mp hnd).2⟩
      intro hmem
      rcases List.mem_map.mp hmem with ⟨q, hq, hEq⟩
      have hq1 : q.1 = p := hEq
      exact (List.nodup_cons.mp hnd).1 (hq1 ▸ (List.of_mem_zip hq).1)

theorem dictOfZip_eq_zip (ps vs : List Value) (hnd : ps.Nodup) :
    dictOfZip ps vs = ps.zip vs := by
  have h := foldl_dictSet_fresh (ps.zip vs) [] (fun p _ => rfl)
    (zip_map_fst_nodup ps vs hnd)
  simpa [dictOfZip] using h

theorem dictGet_zip_nodup (ps : List Value) :
    ∀ (vs : List Value) (i : Nat) (hi : i < ps.length), ps.Nodup →
      dictGet (ps.zip vs) ps[i] = vs[i]? := by
  induction ps with
  | nil => intro vs i hi _; exact absurd hi (by simp)
  | cons p pt ih =>
    intro vs i hi hnd
    match vs, i with
    | [], i => simp [dictGet]
    | v :: vt, 0 => simp [dictGet, List.find?]
    | v :: vt, i + 1 =>
      have hi2 : i < pt.length := by simpa using hi
      have hne : p ≠ pt[i] := by
        intro hEq
        refine (List.nodup_cons.mp hnd).1 ?_
        rw [hEq]
        exact pt.getElem_mem hi2
      simp only [List.zip_cons_cons, List.getElem_cons_succ, List.getElem?_cons_succ]
      rw [show dictGet ((p, v) :: pt.zip vt) pt[i] = dictGet (pt.zip vt) pt[i] by
        simp [dictGet, List.find?, hne]]
      exact ih vt i hi2 (List.nodup_cons.mp hnd).2

/-- C5: constructing an environment from params and args binds `params[i] ↦
args[i]` pairwise, the shorter list winning silently: for distinct params,
looking up `params[i]` in the fresh dict yields `args[i]` when `i` is within
the args and nothing when the args ran out. Concretely,
`Env(params=[a, b], args=[1])` is a single frame binding only `a = 1`, where
`find` on `b` fails with the unbound-symbol ValueError while `find` on `a`
succeeds. -/
theorem env_new_pairwise_binding (ps vs : List Value) (i : Nat)
    (hi : i < ps.length) (hnd : ps.Nodup) :
    dictGet (dictOfZip ps vs) ps[i] = vs[i]?
    ∧ (dictOfZip ps vs).length = min ps.length vs.length
    ∧ (envNew [] [.str "a", .str "b"] [.int 1] none).1
        = [⟨[(.str "a", .int 1)], none⟩]
    ∧ Store.find [⟨[(.str "a", .int 1)], none⟩] 0 (.str "b")
        = .error (.unbound (.str "b"))
    ∧ Store.find [⟨[(.str "a", .int 1)], none⟩] 0 (.str "a") = .ok 0 := by
  refine ⟨?_, ?_, rfl, rfl, rfl⟩
  · rw [dictOfZip_eq_zip ps vs hnd]
    exact dictGet_zip_nodup ps vs i hi hnd
  · rw [dictOfZip_eq_zip ps vs hnd]
    exact List.length_zip ps vs

/-- Witness for C5 at `params = [a, b]`, `args = [1]`, `i = 0`. -/
theorem env_new_pairwise_binding_witness :
    dictGet (dictOfZip [Value.str "a", Value.str "b"] [Value.int 1])
        (([Value.str "a", Value.str "b"] : List Value)[0])
      = ([Value.int 1] : List Value)[0]?
    ∧ (dictOfZip [Value.str "a", Value.str "b"] [Value.int 1]).length
        = min ([Value.str "a", Value.str "b"] : List Value).length
            ([Value.int 1] : List Value).length
    ∧ (envNew [] [.str "a", .str "b"] [.int 1] none).1
        = [⟨[(.str "a", .int 1)], none⟩]
    ∧ Store.find [⟨[(.str "a", .int 1)], none⟩] 0 (.str "b")
        = .error (.unbound (.str "b"))
    ∧ Store.find [⟨[(.str "a", .int 1)], none⟩] 0 (.str "a") = .ok 0 :=
  env_new_pairwise_binding [.str "a", .str "b"] [.int 1] 0 (by decide) (by decide)

/-! ### Frame-effect helper lemmas -/

theorem extendsOutside_refl (env : Nat) (s : Store) : ExtendsOutside env s s :=
  ⟨le_refl _, fun _ _ _ => rfl⟩

theorem extendsOutside_trans {env : Nat} {s t u : Store}
    (h1 : ExtendsOutside env s t) (h2 : ExtendsOutside env t u) :
    ExtendsOutside env s u :=
  ⟨le_trans h1.1 h2.1,
   fun i hi hne => (h2.2 i (lt_of_lt_of_le hi h1.1) hne).trans (h1.2 i hi hne)⟩

theorem extendsOutside_append (env : Nat) (s : Store) (fr : EnvFrame) :
    ExtendsOutside env s (s ++ [fr]) := by
  refine ⟨by simp, fun i hi _ => ?_⟩
  rw [List.get?_eq_getElem?, List.get?_eq_getElem?, List.getElem?_append_left hi]

theorem extendsOutside_storeWrite (env : Nat) (s : Store) (k v : Value) :
    ExtendsOutside env s (storeWrite s env k v) := by
  unfold storeWrite
  cases hg : s.get? env with
  | none => exact extendsOutside_refl _ _
  | some fr =>
    refine ⟨by simp, fun i hi hne => ?_⟩
    rw [List.get?_eq_getElem?, List.get?_eq_getElem?]
    exact List.getElem?_set_ne (fun h => hne h.symm)

theorem noSet_list_elim {l : List Value} (h : NoSet (.list l)) : ∀ v ∈ l, NoSet v := by
  cases h; assumption

theorem noSet_str_elim {s : String} (h : NoSet (.str s)) : s ≠ "set!" := by
  cases h; assumption

theorem noSet_proc_elim {p b : Value} {e : Nat} (h : NoSet (.proc p b e)) :
    NoSet p ∧ NoSet b := by
  cases h; constructor <;> assumption

theorem dictSet_frameNoSet {d : Dict} {k v : Value}
    (hd : ∀ kv ∈ d, NoSet kv.1 ∧ NoSet kv.2) (hk : NoSet k) (hv : NoSet v) :
    ∀ kv ∈ dictSet d k v, NoSet kv.1 ∧ NoSet kv.2 := by
  intro kv hkv
  unfold dictSet at hkv
  by_cases hhas : dictHasKey d k
  · rw [if_pos hhas] at hkv
    rcases List.mem_map.mp hkv with ⟨kv0, h0, hEq⟩
    by_cases hk0 : kv0.1 = k
    · rw [if_pos hk0] at hEq
      subst hEq
      exact ⟨hk, hv⟩
    · rw [if_neg hk0] at hEq
      subst hEq
      exact hd kv0 h0
  · rw [if_neg hhas] at hkv
    rcases List.mem_append.mp hkv with h | h
    · exact hd kv h
    · rcases List.mem_singleton.mp h with rfl
      exact ⟨hk, hv⟩

theorem foldl_dictSet_noSet (pairs : List (Value × Value)) :
    ∀ d : Dict, (∀ kv ∈ d, NoSet kv.1 ∧ NoSet kv.2) →
      (∀ kv ∈ pairs, NoSet kv.1 ∧ NoSet kv.2) →
      ∀ kv ∈ pairs.foldl (fun d2 kv => dictSet d2 kv.1 kv.2) d,
        NoSet kv.1 ∧ NoSet kv.2 := by
  induction pairs with
  | nil => intro d hd _; exact hd
  | cons p rest ih =>
    intro d hd hp
    rw [List.foldl_cons]
    exact ih (dictSet d p.1 p.2)
      (dictSet_frameNoSet hd (hp p (by simp)).1 (hp p (by simp)).2)
      (fun kv hkv => hp kv (by simp [hkv]))

theorem dictOfZip_noSet {ps vs : List Value}
    (hp : ∀ k ∈ ps, NoSet k) (hv : ∀ v ∈ vs, NoSet v) :
    ∀ kv ∈ dictOfZip ps vs, NoSet kv.1 ∧ NoSet kv.2 := by
  refine foldl_dictSet_noSet (ps.zip vs) [] (by simp) ?_
  intro kv hkv
  exact ⟨hp kv.1 (List.of_mem_zip hkv).1, hv kv.2 (List.of_mem_zip hkv).2⟩

theorem storeNoSet_append {s : Store} {fr : EnvFrame}
    (hs : StoreNoSet s) (hf : FrameNoSet fr) : StoreNoSet (s ++ [fr]) := by
  intro fr2 hfr2
  rcases List.mem_append.mp hfr2 with h | h
  · exact hs fr2 h
  · rcases List.mem_singleton.mp h with rfl
    exact hf

theorem storeNoSet_write {s : Store} {i : Nat} {k v : Value}
    (hs : StoreNoSet s) (hk : NoSet k) (hv : NoSet v) :
    StoreNoSet (storeWrite s i k v) := by
  unfold storeWrite
  cases hg : s.get? i with
  | none => exact hs
  | some fr =>
    intro fr2 hfr2
    rcases List.mem_or_eq_of_mem_set hfr2 with h | h
    · exact hs fr2 h
    · subst h
      exact dictSet_frameNoSet (hs fr (List.get?_mem hg)) hk hv

theorem dictGet_noSet {d : Dict} {k v : Value}
    (hd : ∀ kv ∈ d, NoSet kv.1 ∧ NoSet kv.2) (h : dictGet d k = some v) : NoSet v := by
  unfold dictGet at h
  rcases Option.map_eq_some'.mp h with ⟨kv, hfind, hEq⟩
  subst hEq
  exact (hd kv (List.mem_of_find?_eq_some hfind)).2

theorem singleton_str_noSet (c : Char) : NoSet (.str (String.mk [c])) := by
  refine .str _ ?_
  intro h
  have h2 : ([c] : List Char) = ['s', 'e', 't', '!'] := congrArg String.data h
  have h3 := congrArg List.length h2
  simp at h3

theorem paramKeys_noSet {params : Value} {keys : List Value}
    (hp : NoSet params) (h : paramKeys params = some keys) :
    ∀ k ∈ keys, NoSet k := by
  cases params with
  | list l =>
    rw [show paramKeys (.list l) = some l from rfl] at h
    cases h
    exact noSet_list_elim hp
  | str s =>
    rw [show paramKeys (.str s)
        = some (s.data.map (fun c => Value.str (String.mk [c]))) from rfl] at h
    cases h
    intro k hk
    rcases List.mem_map.mp hk with ⟨c, _, rfl⟩
    exact singleton_str_noSet c
  | int n => exact Option.noConfusion h
  | float n d => exact Option.noConfusion h
  | bool b => exact Option.noConfusion h
  | noneV => exact Option.noConfusion h
  | proc p b e => exact Option.noConfusion h

theorem foldl_evalStep_error (fuel env : Nat) (args : List Value) (s : Store) (e : EvalErr) :
    args.foldl (evalStep fuel env) (s, .error e) = (s, .error e) := by
  induction args with
  | nil => rfl
  | cons a rest ih => rw [List.foldl_cons]; exact ih

theorem pure_call_step {s s1 : Store} {r0 r : Except EvalErr Value}
    (hs : StoreNoSet s) (hno : ∀ v, r0 = .ok v → NoSet v)
    (h : ((s, r0) : Store × Except EvalErr Value) = (s1, r)) :
    (∀ i, i < s.length → s1.get? i = s.get? i) ∧ s.length ≤ s1.length
      ∧ StoreNoSet s1 ∧ ∀ v, r = .ok v → NoSet v := by
  injection h with h1 h2
  subst h1; subst h2
  exact ⟨fun _ _ => rfl, le_refl _, hs, hno⟩

theorem pure_step {env : Nat} {s s1 : Store} {r0 r : Except EvalErr Value}
    (hs : StoreNoSet s) (hno : ∀ v, r0 = .ok v → NoSet v)
    (h : ((s, r0) : Store × Except EvalErr Value) = (s1, r)) :
    ExtendsOutside env s s1 ∧ StoreNoSet s1 ∧ ∀ v, r = .ok v → NoSet v := by
  injection h with h1 h2
  subst h1; subst h2
  exact ⟨extendsOutside_refl _ _, hs, hno⟩

/-- The frame invariant for the source's argument-list evaluation, given the
invariant for single evaluations at the same fuel. -/
theorem evalArgs_invariant (fuel : Nat)
    (IH : ∀ (x : Value) (env : Nat) (s s1 : Store) (r : Except EvalErr Value),
      NoSet x → StoreNoSet s → eval fuel x env s = (s1, r) →
      ExtendsOutside env s s1 ∧ StoreNoSet s1 ∧ ∀ v, r = .ok v → NoSet v) :
    ∀ (args : List Value) (env : Nat) (s s1 : Store) (acc : List Value)
      (r : Except EvalErr (List Value)),
      (∀ a ∈ args, NoSet a) → (∀ a ∈ acc, NoSet a) → StoreNoSet s →
      args.foldl (evalStep fuel env) (s, .ok acc) = (s1, r) →
      ExtendsOutside env s s1 ∧ StoreNoSet s1
        ∧ ∀ vs, r = .ok vs → ∀ v ∈ vs, NoSet v := by
  intro args
  induction args with
  | nil =>
    intro env s s1 acc r _ hacc hs h
    have h' : ((s, .ok acc) : Store × Except EvalErr (List Value)) = (s1, r) := h
    injection h' with h1 h2
    subst h1; subst h2
    exact ⟨extendsOutside_refl _ _, hs, fun vs hvs => by cases hvs; exact hacc⟩
  | cons a rest ihargs =>
    intro env s s1 acc r hargs hacc hs h
    rw [List.foldl_cons] at h
    rcases hE : eval fuel a env s with ⟨s2, ra⟩
    obtain ⟨ext1, hs2, hva⟩ := IH a env s s2 ra (hargs a (by simp)) hs hE
    cases ra with
    | error e =>
      have h' : rest.foldl (evalStep fuel env) (s2, .error e) = (s1, r) := by
        rw [show evalStep fuel env (s, .ok acc) a
            = ((s2, .error e) : Store × Except EvalErr (List Value)) by
          simp only [evalStep]; rw [hE]] at h
        exact h
      rw [foldl_evalStep_error] at h'
      injection h' with h1 h2
      subst h1; subst h2
      exact ⟨ext1, hs2, fun vs hvs => by cases hvs⟩
    | ok v =>
      have h' : rest.foldl (evalStep fuel env) (s2, .ok (acc ++ [v])) = (s1, r) := by
        rw [show evalStep fuel env (s, .ok acc) a
            = ((s2, .ok (acc ++ [v])) : Store × Except EvalErr (List Value)) by
          simp only [evalStep]; rw [hE]] at h
        exact h
      obtain ⟨ext2, hs1, hvs⟩ := ihargs env s2 s1 (acc ++ [v]) r
        (fun b hb => hargs b (by simp [hb]))
        (fun b hb => by
          rcases List.mem_append.mp hb with hb | hb
          · exact hacc b hb
          · have hbv : b = v := List.mem_singleton.mp hb
            rw [hbv]
            exact hva v rfl)
        hs2 h'
      exact ⟨extendsOutside_trans ext1 ext2, hs1, hvs⟩

/-- The frame invariant for `Procedure.__call__`, given the invariant for
evaluations at the same fuel: every frame existing before the call is
unchanged after it (the body runs in a fresh frame). -/
theorem procedureCall_invariant (fuel : Nat)
    (IH : ∀ (x : Value) (env : Nat) (s s1 : Store) (r : Except EvalErr Value),
      NoSet x → StoreNoSet s → eval fuel x env s = (s1, r) →
      ExtendsOutside env s s1 ∧ StoreNoSet s1 ∧ ∀ v, r = .ok v → NoSet v) :
    ∀ (procv : Value) (vals : List Value) (s s1 : Store) (r : Except EvalErr Value),
      NoSet procv → (∀ v ∈ vals, NoSet v) → StoreNoSet s →
      procedureCall fuel procv vals s = (s1, r) →
      (∀ i, i < s.length → s1.get? i = s.get? i) ∧ s.length ≤ s1.length
        ∧ StoreNoSet s1 ∧ ∀ v, r = .ok v → NoSet v := by
  intro procv vals s s1 r hp hv hs h
  cases procv with
  | proc params body envIdx =>
    rcases hk : paramKeys params with _ | keys
    · have h' : ((s, .error .typeErr) : Store × Except EvalErr Value) = (s1, r) := by
        simp only [procedureCall] at h
        rw [hk] at h
        exact h
      exact pure_call_step hs (fun v hv2 => by cases hv2) h'
    · have h' : eval fuel body s.length
          (s ++ [⟨dictOfZip keys vals, some envIdx⟩]) = (s1, r) := by
        simp only [procedureCall] at h
        rw [hk] at h
        exact h
      obtain ⟨hpk, hb⟩ := noSet_proc_elim hp
      have hkeys : ∀ k ∈ keys, NoSet k := paramKeys_noSet hpk hk
      have hsn : StoreNoSet (s ++ [⟨dictOfZip keys vals, some envIdx⟩]) :=
        storeNoSet_append hs (dictOfZip_noSet hkeys hv)
      obtain ⟨ext, hs1, hval⟩ := IH body s.length _ s1 r hb hsn h'
      have hlen2 : s.length ≤ (s ++ [(⟨dictOfZip keys vals, some envIdx⟩ : EnvFrame)]).length := by
        simp
      refine ⟨fun i hi => ?_, le_trans hlen2 ext.1, hs1, hval⟩
      have hi2 : i < (s ++ [(⟨dictOfZip keys vals, some envIdx⟩ : EnvFrame)]).length := by
        simp
        omega

      have hstep := ext.2 i hi2 (by omega)
      rw [hstep, List.get?_eq_getElem?, List.get?_eq_getElem?,
        List.getElem?_append_left hi]
  | int n => exact pure_call_step hs (fun v hv2 => by cases hv2) h
  | float n d => exact pure_call_step hs (fun v hv2 => by cases hv2) h
  | str s2 => exact pure_call_step hs (fun v hv2 => by cases hv2) h
  | bool b => exact pure_call_step hs (fun v hv2 => by cases hv2) h
  | noneV => exact pure_call_step hs (fun v hv2 => by cases hv2) h
  | list l => exact pure_call_step hs (fun v hv2 => by cases hv2) h

/-- The `set!`-free frame invariant of the evaluator: when the evaluated
expression and every value reachable from the store are free of the `set!`
form, an evaluation from frame `env` can write only to frame `env` and to
frames it creates — every older frame other than `env` is untouched — and it
keeps the store and its result `set!`-free. -/
theorem eval_invariant : ∀ (fuel : Nat) (x : Value) (env : Nat) (s s1 : Store)
    (r : Except EvalErr Value), NoSet x → StoreNoSet s → eval fuel x env s = (s1, r) →
    ExtendsOutside env s s1 ∧ StoreNoSet s1 ∧ ∀ v, r = .ok v → NoSet v := by
  intro fuel
  induction fuel with
  | zero =>
    intro x env s s1 r _ hs h
    exact pure_step hs (fun v hv => by cases hv) h
  | succ fuel IH =>
    intro x env s s1 r hx hs h
    cases x with
    | int n => exact pure_step hs (fun v hv => by cases hv; exact hx) h
    | float n d => exact pure_step hs (fun v hv => by cases hv; exact hx) h
    | bool b => exact pure_step hs (fun v hv => by cases hv; exact hx) h
    | noneV => exact pure_step hs (fun v hv => by cases hv; exact hx) h
    | proc p b e => exact pure_step hs (fun v hv => by cases hv; exact hx) h
    | str name =>
      have h' : (match Store.find s env (.str name) with
         | .error e => (s, .error e)
         | .ok i =>
           match s.get? i with
           | none => (s, .error .badRef)
           | some fr =>
             match dictGet fr.table (.str name) with
             | none => (s, .error .badRef)
             | some v => (s, .ok v)) = (s1, r) := h
      rcases hfind : Store.find s env (.str name) with e | i
      · rw [hfind] at h'
        exact pure_step hs (fun v hv => by cases hv) h'
      · rw [hfind] at h'
        have h2 : (match s.get? i with
           | none => (s, .error .badRef)
           | some fr =>
             match dictGet fr.table (.str name) with
             | none => (s, .error .badRef)
             | some v => (s, .ok v)) = (s1, r) := h'
        rcases hget : s.get? i with _ | fr
        · rw [hget] at h2
          exact pure_step hs (fun v hv => by cases hv) h2
        · rw [hget] at h2
          have h3 : (match dictGet fr.table (.str name) with
             | none => ((s, .error .badRef) : Store × Except EvalErr Value)
             | some v => (s, .ok v)) = (s1, r) := h2
          rcases hdg : dictGet fr.table (.str name) with _ | v
          · rw [hdg] at h3
            exact pure_step hs (fun v hv => by cases hv) h3
          · rw [hdg] at h3
            exact pure_step hs
              (fun v2 hv2 => by
                cases hv2
                exact dictGet_noSet (hs fr (List.get?_mem hget)) hdg) h3
    | list elems =>
      cases elems with
      | nil => exact pure_step hs (fun v hv => by cases hv) h
      | cons op args =>
        have helems : ∀ v ∈ op :: args, NoSet v := noSet_list_elim hx
        by_cases hq : op = Value.str "quote"
        · subst hq
          cases args with
          | nil => exact pure_step hs (fun v hv => by cases hv) h
          | cons a rest =>
            exact pure_step hs (fun v hv => by cases hv; exact helems a (by simp)) h
        · by_cases hift : op = Value.str "if"
          · subst hift
            rcases args with _ | ⟨t, _ | ⟨c, _ | ⟨alt, _ | ⟨d, rest⟩⟩⟩⟩
            · exact pure_step hs (fun v hv => by cases hv) h
            · exact pure_step hs (fun v hv => by cases hv) h
            · exact pure_step hs (fun v hv => by cases hv) h
            · have h' : (match eval fuel t env s with
                 | (s2, .error e) => (s2, .error e)
                 | (s2, .ok tv) => eval fuel (if truthy tv then c else alt) env s2)
                  = (s1, r) := h
              rcases hT : eval fuel t env s with ⟨s2, rt⟩
              rw [hT] at h'
              obtain ⟨ext1, hs2, _⟩ := IH t env s s2 rt (helems t (by simp)) hs hT
              cases rt with
              | error e =>
                have h'' : ((s2, .error e) : Store × Except EvalErr Value) = (s1, r) := h'
                injection h'' with h1 h2
                subst h1; subst h2
                exact ⟨ext1, hs2, fun v hv => by cases hv⟩
              | ok tv =>
                have h'' : eval fuel (if truthy tv then c else alt) env s2 = (s1, r) := h'
                have hbr : NoSet (if truthy tv then c else alt) := by
                  by_cases hb : truthy tv
                  · rw [if_pos hb]; exact helems c (by simp)
                  · rw [if_neg hb]; exact helems alt (by simp)
                obtain ⟨ext2, hs1, hval⟩ := IH _ env s2 s1 r hbr hs2 h''
                exact ⟨extendsOutside_trans ext1 ext2, hs1, hval⟩
            · exact pure_step hs (fun v hv => by cases hv) h
          · by_cases hdef : op = Value.str "define"
            · subst hdef
              rcases args with _ | ⟨sym, _ | ⟨expr, _ | ⟨d, rest⟩⟩⟩
              · exact pure_step hs (fun v hv => by cases hv) h
              · exact pure_step hs (fun v hv => by cases hv) h
              · have h' : (match eval fuel expr env s with
                   | (s2, .error e) => (s2, .error e)
                   | (s2, .ok v) => (storeWrite s2 env sym v, .ok .noneV)) = (s1, r) := h
                rcases hE : eval fuel expr env s with ⟨s2, re⟩
                rw [hE] at h'
                obtain ⟨ext1, hs2, hvv⟩ := IH expr env s s2 re (helems expr (by simp)) hs hE
                cases re with
                | error e =>
                  have h'' : ((s2, .error e) : Store × Except EvalErr Value) = (s1, r) := h'
                  injection h'' with h1 h2
                  subst h1; subst h2
                  exact ⟨ext1, hs2, fun v hv => by cases hv⟩
                | ok v =>
                  have h'' : ((storeWrite s2 env sym v, .ok .noneV)
                      : Store × Except EvalErr Value) = (s1, r) := h'
                  injection h'' with h1 h2
                  subst h1; subst h2
                  refine ⟨extendsOutside_trans ext1 (extendsOutside_storeWrite env s2 sym v),
                    storeNoSet_write hs2 (helems sym (by simp)) (hvv v rfl),
                    fun v2 hv2 => by cases hv2; exact .noneV⟩
              · exact pure_step hs (fun v hv => by cases hv) h
            · by_cases hset : op = Value.str "set!"
              · exact absurd rfl (noSet_str_elim (hset ▸ helems op (by simp)))
              · by_cases hl : op = Value.str "lambda"
                · subst hl
                  rcases args with _ | ⟨params, _ | ⟨body, _ | ⟨d, rest⟩⟩⟩
                  · exact pure_step hs (fun v hv => by cases hv) h
                  · exact pure_step hs (fun v hv => by cases hv) h
                  · exact pure_step hs
                      (fun v hv => by
                        cases hv
                        exact .proc _ _ _ (helems params (by simp)) (helems body (by simp))) h
                  · exact pure_step hs (fun v hv => by cases hv) h
                · -- general application
                  simp only [eval] at h
                  rw [if_neg hq, if_neg hift, if_neg hdef, if_neg hset, if_neg hl] at h
                  rcases hOp : eval fuel op env s with ⟨s2, rop⟩
                  rw [hOp] at h
                  obtain ⟨ext1, hs2, hpv⟩ := IH op env s s2 rop (helems op (by simp)) hs hOp
                  cases rop with
                  | error e =>
                    have h' : ((s2, .error e) : Store × Except EvalErr Value) = (s1, r) := h
                    injection h' with h1 h2
                    subst h1; subst h2
                    exact ⟨ext1, hs2, fun v hv => by cases hv⟩
                  | ok procv =>
                    have h' : (match evalArgs fuel args env s2 with
                       | (s3, .error e) => (s3, .error e)
                       | (s3, .ok vals) => procedureCall fuel procv vals s3) = (s1, r) := h
                    rcases hA : evalArgs fuel args env s2 with ⟨s3, rargs⟩
                    rw [hA] at h'
                    obtain ⟨ext2, hs3, hvals⟩ := evalArgs_invariant fuel IH args env s2 s3 [] rargs
                      (fun a ha => helems a (by simp [ha])) (by simp) hs2 hA
                    cases rargs with
                    | error e =>
                      have h'' : ((s3, .error e) : Store × Except EvalErr Value) = (s1, r) := h'
                      injection h'' with h1 h2
                      subst h1; subst h2
                      exact ⟨extendsOutside_trans ext1 ext2, hs3, fun v hv => by cases hv⟩
                    | ok vals =>
                      have h'' : procedureCall fuel procv vals s3 = (s1, r) := h'
                      obtain ⟨hpres, hlen, hs1, hval⟩ :=
                        procedureCall_invariant fuel IH procv vals s3 s1 r
                          (hpv procv rfl) (hvals vals rfl) hs3 h''
                      refine ⟨?_, hs1, hval⟩
                      exact extendsOutside_trans (extendsOutside_trans ext1 ext2)
                        ⟨hlen, fun i hi _ => hpres i hi⟩

/-- C9: invoking a Procedure does not write into its captured defining
environment's own frame, nor into any other frame existing before the call:
`Procedure.__call__` constructs one fresh child frame holding the
parameter-to-argument bindings, with the captured environment only as its
outer link, and every `define` executed in the body binds in the
then-innermost fresh frame — so after the call every pre-existing frame, the
defining environment's own frame included, holds exactly the bindings it had
before. The claim's caveat "absent an explicit set! of a symbol bound there"
is formalised as the hypothesis that `set!` occurs nowhere in the code the
call can reach: the procedure's params and body, the argument values, and
every value stored in the store. -/
theorem procedure_call_preserves_frames (fuel : Nat) (params body : Value)
    (envIdx : Nat) (vals : List Value) (s s1 : Store) (r : Except EvalErr Value)
    (hp : NoSet (.proc params body envIdx)) (hv : ∀ v ∈ vals, NoSet v)
    (hs : StoreNoSet s)
    (h : procedureCall fuel (.proc params body envIdx) vals s = (s1, r)) :
    ∀ i, i < s.length → s1.get? i = s.get? i :=
  (procedureCall_invariant fuel (eval_invariant fuel) (.proc params body envIdx)
    vals s s1 r hp hv hs h).1

/-- Witness for C9: calling `(lambda (n) (define y 9))` on argument 7 over a
store whose global frame binds `x = 1` leaves that global frame unchanged
(the `define` lands in the fresh call frame). -/
theorem procedure_call_preserves_frames_witness :
    ([⟨[(.str "x", .int 1)], none⟩,
      ⟨[(.str "n", .int 7), (.str "y", .int 9)], some 0⟩] : Store).get? 0
      = ([⟨[(.str "x", .int 1)], none⟩] : Store).get? 0 := by
  have hp : NoSet (Value.proc (.list [.str "n"])
      (.list [.str "define", .str "y", .int 9]) 0) := by
    refine .proc _ _ _ (.list _ ?_) (.list _ ?_)
    · intro v hv
      rcases List.mem_singleton.mp hv with rfl
      exact .str _ (by decide)
    · intro v hv
      simp only [List.mem_cons, List.not_mem_nil, or_false] at hv
      rcases hv with rfl | rfl | rfl
      · exact .str _ (by decide)
      · exact .str _ (by decide)
      · exact .int _
  have hv : ∀ v ∈ ([.int 7] : List Value), NoSet v := by
    intro v hv
    rcases List.mem_singleton.mp hv with rfl
    exact .int _
  have hs : StoreNoSet [⟨[(.str "x", .int 1)], none⟩] := by
    intro fr hfr
    rcases List.mem_singleton.mp hfr with rfl
    intro kv hkv
    rcases List.mem_singleton.mp hkv with rfl
    exact ⟨.str _ (by decide), .int _⟩
  exact procedure_call_preserves_frames 3 (.list [.str "n"])
    (.list [.str "define", .str "y", .int 9]) 0 [.int 7]
    [⟨[(.str "x", .int 1)], none⟩]
    [⟨[(.str "x", .int 1)], none⟩,
     ⟨[(.str "n", .int 7), (.str "y", .int 9)], some 0⟩]
    (.ok .noneV) hp hv hs rfl 0 (by decide)

end Lispy
